import Mathlib

/-!
Verification of the CAnitiser certificate-audit pipeline.

Python strings are modelled as `List Char`; Python's `str.strip`, `str.lower`,
substring containment (`in`), `str.startswith` and `str.splitlines` are
modelled by the executable functions below.  The classification engine is
translated from `ca-analyse.py`, the scan-job orchestrator from
`ca-nitiser-k8s.py` (the canonical in-cluster variant).
-/

/-! ## Definitions (modelled from the source) -/

/-! ## Python string primitives -/

/-- Python `s.lower()` (ASCII letters, the range the policy data uses). -/
def lowerStr (l : List Char) : List Char := l.map Char.toLower

/-- Python `s.lstrip()`. -/
def lstrip (l : List Char) : List Char := l.dropWhile Char.isWhitespace

/-- Python `s.rstrip()`. -/
def rstrip (l : List Char) : List Char := (l.reverse.dropWhile Char.isWhitespace).reverse

/-- Python `s.strip()`. -/
def pystrip (l : List Char) : List Char := rstrip (lstrip l)

/-- Python's substring operator `pat in s`. -/
def strIn (pat : List Char) : List Char → Bool
  | [] => pat.isPrefixOf []
  | c :: t => pat.isPrefixOf (c :: t) || strIn pat t

/-! ## Classification engine (`ca-analyse.py`) -/

/-- `normalize_subject` from `ca-analyse.py`:
strip whitespace, drop a leading case-insensitive `subject=` plus following
whitespace, lower-case the result. -/
def normalize_subject (subject : List Char) : List Char :=
  let s := pystrip subject
  if ("subject=".toList).isPrefixOf (lowerStr s) then lowerStr (lstrip (s.drop 8))
  else lowerStr s

/-- `classify_cert` from `ca-analyse.py`: blacklist first (RED), then
whitelist (GREEN), else YELLOW; a pattern matches when its lower-cased form is
a substring of the normalized subject. -/
def classify_cert (subject : List Char) (whitelist blacklist : List (List Char)) :
    List Char :=
  let s := normalize_subject subject
  if blacklist.any (fun pat => strIn (lowerStr pat) s) then "RED".toList
  else if whitelist.any (fun pat => strIn (lowerStr pat) s) then "GREEN".toList
  else "YELLOW".toList

/-- Case-insensitive substring containment, the matching notion of the spec. -/
def ciMatch (pat s : List Char) : Bool := strIn (lowerStr pat) (lowerStr s)

/-! ## Image-level aggregation (`ca-analyse.py` main) -/

/-- One classified certificate of the report (`flat_certs` element). -/
structure OutCert where
  path : List Char
  subject : List Char
  classification : List Char
deriving DecidableEq, Repr

/-- The per-image status computation of `ca-analyse.py` `main`:
RED if any cert is RED, else YELLOW if there are certs and one is YELLOW,
else GREEN. -/
def image_status (flat : List OutCert) : List Char :=
  let has_red := flat.any (fun c => c.classification == "RED".toList)
  let has_yellow := flat.any (fun c => c.classification == "YELLOW".toList)
  if has_red then "RED".toList
  else if !flat.isEmpty && has_yellow then "YELLOW".toList
  else "GREEN".toList

/-- Severity order of the spec: RED > YELLOW > GREEN. -/
def severity (c : List Char) : Nat :=
  if c = "RED".toList then 2 else if c = "YELLOW".toList then 1 else 0

/-- The classification of a given severity level. -/
def status_of_severity (n : Nat) : List Char :=
  if n = 2 then "RED".toList else if n = 1 then "YELLOW".toList else "GREEN".toList

/-- Maximum severity over the classified certificates of an image. -/
def max_severity (flat : List OutCert) : Nat :=
  (flat.map (fun c => severity c.classification)).foldr max 0

/-! ## SHA-1 (hashlib.sha1) over byte lists, words as Nat mod 2^32 -/

def MOD32 : Nat := 4294967296

def rotl32 (n x : Nat) : Nat := ((x <<< n) ||| (x >>> (32 - n))) % MOD32

def utf8EncodeCodepoint (c : Nat) : List Nat :=
  if c < 128 then [c]
  else if c < 2048 then [192 ||| (c >>> 6), 128 ||| (c &&& 63)]
  else if c < 65536 then
    [224 ||| (c >>> 12), 128 ||| ((c >>> 6) &&& 63), 128 ||| (c &&& 63)]
  else
    [240 ||| (c >>> 18), 128 ||| ((c >>> 12) &&& 63), 128 ||| ((c >>> 6) &&& 63),
      128 ||| (c &&& 63)]

/-- Python `image.encode("utf-8")`. -/
def utf8Encode (s : List Char) : List Nat :=
  s.flatMap (fun c => utf8EncodeCodepoint c.toNat)

def bigEndian8 (n : Nat) : List Nat :=
  (List.range 8).map (fun i => (n >>> ((7 - i) * 8)) % 256)

def sha1Pad (msg : List Nat) : List Nat :=
  let len := msg.length
  let k := (120 - ((len + 1) % 64)) % 64
  msg ++ [128] ++ List.replicate k 0 ++ bigEndian8 (len * 8)

def bytesToWords : List Nat → List Nat
  | b0 :: b1 :: b2 :: b3 :: rest =>
    ((((b0 <<< 8) ||| b1) <<< 8 ||| b2) <<< 8 ||| b3) :: bytesToWords rest
  | _ => []

def extendW (ws : List Nat) : List Nat :=
  (List.range 64).foldl
    (fun acc _ =>
      acc ++ [rotl32 1 ((acc.getD (acc.length - 3) 0) ^^^ (acc.getD (acc.length - 8) 0) ^^^
        (acc.getD (acc.length - 14) 0) ^^^ (acc.getD (acc.length - 16) 0))])
    ws

def sha1F (i b c d : Nat) : Nat :=
  if i < 20 then (b &&& c) ||| ((b ^^^ 4294967295) &&& d)
  else if i < 40 then b ^^^ c ^^^ d
  else if i < 60 then (b &&& c) ||| (b &&& d) ||| (c &&& d)
  else b ^^^ c ^^^ d

def sha1K (i : Nat) : Nat :=
  if i < 20 then 1518500249
  else if i < 40 then 1859775393
  else if i < 60 then 2400959708
  else 3395469782

def sha1Compress (h : Nat × Nat × Nat × Nat × Nat) (block : List Nat) :
    Nat × Nat × Nat × Nat × Nat :=
  let (h0, h1, h2, h3, h4) := h
  let ws := extendW block
  let (a, b, c, d, e) :=
    (ws.enum).foldl
      (fun st p =>
        let (a, b, c, d, e) := st
        let (i, w) := p
        ((rotl32 5 a + sha1F i b c d + e + sha1K i + w) % MOD32, a, rotl32 30 b, c, d))
      (h0, h1, h2, h3, h4)
  ((h0 + a) % MOD32, (h1 + b) % MOD32, (h2 + c) % MOD32, (h3 + d) % MOD32, (h4 + e) % MOD32)

def sha1Loop (h : Nat × Nat × Nat × Nat × Nat) : List Nat → Nat × Nat × Nat × Nat × Nat
  | w0 :: w1 :: w2 :: w3 :: w4 :: w5 :: w6 :: w7 :: w8 :: w9 :: w10 :: w11 :: w12 :: w13 ::
      w14 :: w15 :: rest =>
    sha1Loop
      (sha1Compress h [w0, w1, w2, w3, w4, w5, w6, w7, w8, w9, w10, w11, w12, w13, w14, w15])
      rest
  | _ => h

def sha1Words (msg : List Nat) : Nat × Nat × Nat × Nat × Nat :=
  sha1Loop (1732584193, 4023233417, 2562383102, 271733878, 3285377520)
    (bytesToWords (sha1Pad msg))

def hexDigit (n : Nat) : Char :=
  if n < 10 then Char.ofNat (48 + n) else Char.ofNat (87 + n)

def hexWord (w : Nat) : List Char :=
  (List.range 8).map (fun i => hexDigit ((w >>> ((7 - i) * 4)) % 16))

/-- Python `hashlib.sha1(bytes).hexdigest()`. -/
def sha1Hex (msg : List Nat) : List Char :=
  let (h0, h1, h2, h3, h4) := sha1Words msg
  hexWord h0 ++ hexWord h1 ++ hexWord h2 ++ hexWord h3 ++ hexWord h4

/-! ## Scan job orchestrator (`ca-nitiser-k8s.py`) -/

/-- `make_job_name` from `ca-nitiser-k8s.py`: `"ca-scan-"` followed by the
first ten hex characters of the SHA-1 of the utf-8 encoded image reference. -/
def make_job_name (image : List Char) : List Char :=
  "ca-scan-".toList ++ (sha1Hex (utf8Encode image)).take 10

/-- `create_scan_job`: submits the Job; a 409 conflict (name already present)
is treated as reuse.  The cluster's set of scan-job names is the state; the
module never deletes from it (`ca-nitiser-k8s.py` contains no delete call). -/
def create_scan_job (jobs : List (List Char)) (image : List Char) :
    List (List Char) × List Char :=
  let name := make_job_name image
  (if jobs.contains name then jobs else jobs ++ [name], name)

/-- Terminal phase returned by `wait_for_job`. -/
inductive Phase where
  | complete
  | failed
  | timeout
deriving DecidableEq, Repr

/-- Cluster behaviour observed by one `extract_certs_with_job` call: the
phase `wait_for_job` returns, the pod found by the label selector (if any)
and that pod's log blob. -/
structure ScanEnv where
  phase : Phase
  pod : Option (List Char)
  logs : List Char
deriving DecidableEq, Repr

/-- One parsed `<path>\t<subject>` record. -/
structure CertRecord where
  path : List Char
  subject : List Char
deriving DecidableEq, Repr

/-- Line-break characters of Python `str.splitlines`. -/
def isLineBreak (c : Char) : Bool :=
  c == '\n' || c == '\r' || c.toNat == 11 || c.toNat == 12 || c.toNat == 28 ||
    c.toNat == 29 || c.toNat == 30 || c.toNat == 133 || c.toNat == 8232 || c.toNat == 8233

def splitlinesGo (acc : List Char) : List Char → List (List Char)
  | [] => if acc.isEmpty then [] else [acc.reverse]
  | c :: rest =>
    if c == '\r' then
      match rest with
      | '\n' :: rest2 => acc.reverse :: splitlinesGo [] rest2
      | [] => acc.reverse :: splitlinesGo [] []
      | c2 :: rest2 => acc.reverse :: splitlinesGo [] (c2 :: rest2)
    else if isLineBreak c then acc.reverse :: splitlinesGo [] rest
    else splitlinesGo (c :: acc) rest

/-- Python `str.splitlines`. -/
def splitlines (l : List Char) : List (List Char) := splitlinesGo [] l

/-- The parsing loop of `extract_certs_with_job`: skip lines without a tab,
split on the first tab, strip both parts, keep the record when both parts
are non-empty. -/
def parse_lines : List (List Char) → List CertRecord
  | [] => []
  | line :: rest =>
    if strIn ['\t'] line then
      let path := pystrip (line.takeWhile (fun c => !(c == '\t')))
      let subj := pystrip ((line.dropWhile (fun c => !(c == '\t'))).drop 1)
      if !path.isEmpty && !subj.isEmpty then ⟨path, subj⟩ :: parse_lines rest
      else parse_lines rest
    else parse_lines rest

/-- The log-to-records step of `extract_certs_with_job`
(`logs = logs.strip(); if not logs: return []; for line in logs.splitlines() ...`). -/
def parse_cert_logs (logs : List Char) : List CertRecord :=
  let stripped := pystrip logs
  if stripped.isEmpty then [] else parse_lines (splitlines stripped)

/-- The per-line acceptance rule exactly as the specification words it:
a line yields a record iff it contains a tab and the first-tab split has two
parts that are non-empty after trimming; the record holds the trimmed parts. -/
def line_record (line : List Char) : Option CertRecord :=
  if strIn ['\t'] line then
    let path := pystrip (line.takeWhile (fun c => !(c == '\t')))
    let subj := pystrip ((line.dropWhile (fun c => !(c == '\t'))).drop 1)
    if !path.isEmpty && !subj.isEmpty then some ⟨path, subj⟩ else none
  else none

/-- The parser as the specification describes it: split the blob into lines
and apply the per-line rule — with no whole-blob strip. -/
def claim_parse (blob : List Char) : List CertRecord :=
  (splitlines blob).filterMap line_record

/-- `extract_certs_with_job` from `ca-nitiser-k8s.py`: create (or reuse) the
job, wait for a terminal phase, locate the pod, fetch logs, and parse.  The
returned pair is (set of scan jobs existing after the call, certificates).
No branch removes the job. -/
def extract_certs_with_job (jobs : List (List Char)) (image : List Char) (env : ScanEnv) :
    List (List Char) × List CertRecord :=
  let r := create_scan_job jobs image
  match env.pod with
  | none => (r.1, [])
  | some _ =>
    if env.phase ≠ Phase.complete then (r.1, [])
    else (r.1, parse_cert_logs env.logs)

/-! ## Report assembly: orchestrator `main` and `ca-analyse.py` `main` -/

/-- Python string comparison (code-point lexicographic), used by `sorted`. -/
def strLe : List Char → List Char → Bool
  | [], _ => true
  | _ :: _, [] => false
  | a :: as, b :: bs =>
    if a.toNat < b.toNat then true
    else if b.toNat < a.toNat then false
    else strLe as bs

/-- One item of the image inventory (`images_info`): image and the set of
namespaces it runs in. -/
structure InvEntry where
  image : List Char
  namespaces : List (List Char)
deriving DecidableEq, Repr

/-- One entry of the orchestrator's JSON output
(`{image, namespaces, certs}`), the input schema of `ca-analyse.py`. -/
structure InEntry where
  image : List Char
  namespaces : List (List Char)
  certs : List CertRecord
deriving DecidableEq, Repr

/-- One entry of the final report
(`{image, namespaces, status, certs}`). -/
structure OutEntry where
  image : List Char
  namespaces : List (List Char)
  status : List Char
  certs : List OutCert
deriving DecidableEq, Repr

/-- The scan loop of the orchestrator `main`: walk the (sorted) inventory,
run `extract_certs_with_job` per image threading the cluster's job set, and
collect `{image, namespaces: sorted(ns_set), certs}` records. -/
def orchestrator_scan (envf : List Char → ScanEnv) :
    List (List Char) → List InvEntry → List (List Char) × List InEntry
  | jobs, [] => (jobs, [])
  | jobs, e :: rest =>
    let r := extract_certs_with_job jobs e.image (envf e.image)
    let rest' := orchestrator_scan envf r.1 rest
    (rest'.1,
      { image := e.image, namespaces := e.namespaces.mergeSort strLe,
        certs := r.2 } :: rest'.2)

/-- Orchestrator `main` (`ca-nitiser-k8s.py`): iterate
`sorted(images_info.items())` and emit one record per image. -/
def orchestrator_main (jobs0 : List (List Char)) (inv : List InvEntry)
    (envf : List Char → ScanEnv) : List InEntry :=
  (orchestrator_scan envf jobs0 (inv.mergeSort (fun a b => strLe a.image b.image))).2

/-- The per-entry body of `ca-analyse.py` `main`: classify each cert and
attach the aggregate status. -/
def analyse_entry (whitelist blacklist : List (List Char)) (e : InEntry) : OutEntry :=
  let flat := e.certs.map (fun c =>
    { path := c.path, subject := c.subject,
      classification := classify_cert c.subject whitelist blacklist : OutCert })
  { image := e.image, namespaces := e.namespaces, status := image_status flat,
    certs := flat }

/-- `ca-analyse.py` `main`: one report entry per input entry, in order. -/
def analyse_main (whitelist blacklist : List (List Char)) (entries : List InEntry) :
    List OutEntry :=
  entries.map (analyse_entry whitelist blacklist)

/-! ## Theorems -/

/-! ## Character-level facts -/

theorem toNat_ofNat_valid (n : Nat) (h : n.isValidChar) : (Char.ofNat n).toNat = n := by
  unfold Char.ofNat
  rw [dif_pos h]
  rfl

theorem char_eq_iff_toNat (a b : Char) : a = b ↔ a.toNat = b.toNat := by
  constructor
  · intro h; rw [h]
  · intro h
    calc a = Char.ofNat a.toNat := (Char.ofNat_toNat a).symm
    _ = Char.ofNat b.toNat := by rw [h]
    _ = b := Char.ofNat_toNat b

theorem isWhitespace_iff (c : Char) :
    c.isWhitespace = true ↔ (c.toNat = 32 ∨ c.toNat = 9 ∨ c.toNat = 13 ∨ c.toNat = 10) := by
  unfold Char.isWhitespace
  simp only [Bool.or_eq_true, decide_eq_true_eq]
  rw [char_eq_iff_toNat c ' ', char_eq_iff_toNat c '\t', char_eq_iff_toNat c '\r',
    char_eq_iff_toNat c '\n']
  have h1 : (' ').toNat = 32 := rfl
  have h2 : ('\t').toNat = 9 := rfl
  have h3 : ('\r').toNat = 13 := rfl
  have h4 : ('\n').toNat = 10 := rfl
  rw [h1, h2, h3, h4]
  tauto

theorem toLower_isWhitespace (c : Char) : (c.toLower).isWhitespace = c.isWhitespace := by
  unfold Char.toLower
  dsimp only
  split
  · next h =>
    have hv : (c.toNat + 32).isValidChar := by left; omega
    have h1 : (Char.ofNat (c.toNat + 32)).toNat = c.toNat + 32 := toNat_ofNat_valid _ hv
    have h2 : c.isWhitespace = false := by
      cases hws : c.isWhitespace
      · rfl
      · exact absurd ((isWhitespace_iff c).mp hws) (by omega)
    rw [h2]
    cases hws : (Char.ofNat (c.toNat + 32)).isWhitespace
    · rfl
    · exact absurd ((isWhitespace_iff _).mp hws) (by omega)
  · rfl

theorem toLower_toLower (c : Char) : c.toLower.toLower = c.toLower := by
  unfold Char.toLower
  dsimp only
  split
  · next h =>
    have hv : (c.toNat + 32).isValidChar := by left; omega
    have h1 : (Char.ofNat (c.toNat + 32)).toNat = c.toNat + 32 := toNat_ofNat_valid _ hv
    rw [if_neg (by omega)]
  · rfl

theorem lowerStr_lowerStr (l : List Char) : lowerStr (lowerStr l) = lowerStr l := by
  induction l with
  | nil => rfl
  | cons c t ih =>
    simp only [lowerStr, List.map_cons, List.map_map] at *
    simp [toLower_toLower, ih]

theorem lowerStr_normalize (s : List Char) :
    lowerStr (normalize_subject s) = normalize_subject s := by
  unfold normalize_subject
  dsimp only
  split
  · exact lowerStr_lowerStr _
  · exact lowerStr_lowerStr _

theorem ciMatch_normalize (pat s : List Char) :
    ciMatch pat (normalize_subject s) = strIn (lowerStr pat) (normalize_subject s) := by
  unfold ciMatch
  rw [lowerStr_normalize]

/-- C2: classification precedence. Any blacklist pattern matching
(case-insensitively, as a substring of the normalized subject) forces RED
regardless of the whitelist; with no blacklist match a whitelist match gives
GREEN; with no match at all the result is YELLOW. -/
theorem classify_cert_precedence (subject : List Char)
    (whitelist blacklist : List (List Char)) :
    ((∃ p ∈ blacklist, ciMatch p (normalize_subject subject) = true) →
      classify_cert subject whitelist blacklist = "RED".toList) ∧
    ((∀ p ∈ blacklist, ciMatch p (normalize_subject subject) = false) →
      (∃ p ∈ whitelist, ciMatch p (normalize_subject subject) = true) →
      classify_cert subject whitelist blacklist = "GREEN".toList) ∧
    ((∀ p ∈ blacklist, ciMatch p (normalize_subject subject) = false) →
      (∀ p ∈ whitelist, ciMatch p (normalize_subject subject) = false) →
      classify_cert subject whitelist blacklist = "YELLOW".toList) := by
  simp only [ciMatch_normalize]
  unfold classify_cert
  dsimp only
  refine ⟨?_, ?_, ?_⟩
  · rintro ⟨p, hp, hm⟩
    rw [if_pos (List.any_eq_true.mpr ⟨p, hp, hm⟩)]
  · intro hb ⟨p, hp, hm⟩
    rw [if_neg ?_, if_pos (List.any_eq_true.mpr ⟨p, hp, hm⟩)]
    intro hany
    obtain ⟨q, hq, hqm⟩ := List.any_eq_true.mp hany
    rw [hb q hq] at hqm
    exact Bool.false_ne_true hqm
  · intro hb hw
    rw [if_neg ?_, if_neg ?_]
    · intro hany
      obtain ⟨q, hq, hqm⟩ := List.any_eq_true.mp hany
      rw [hw q hq] at hqm
      exact Bool.false_ne_true hqm
    · intro hany
      obtain ⟨q, hq, hqm⟩ := List.any_eq_true.mp hany
      rw [hb q hq] at hqm
      exact Bool.false_ne_true hqm

/-- C2 witness: the three branches at concrete inputs
(policy whitelist ["let's encrypt"], blacklist ["comodo"]). -/
theorem classify_cert_precedence_witness :
    classify_cert "subject=CN=Comodo RSA CA".toList ["let's encrypt".toList]
      ["comodo".toList] = "RED".toList ∧
    classify_cert "CN=R3, O=Let's Encrypt".toList ["let's encrypt".toList]
      ["comodo".toList] = "GREEN".toList ∧
    classify_cert "CN=Internal Corp Root".toList ["let's encrypt".toList]
      ["comodo".toList] = "YELLOW".toList := by
  refine ⟨?_, ?_, ?_⟩
  · exact (classify_cert_precedence "subject=CN=Comodo RSA CA".toList
      ["let's encrypt".toList] ["comodo".toList]).1
      ⟨"comodo".toList, by decide, by decide⟩
  · exact (classify_cert_precedence "CN=R3, O=Let's Encrypt".toList
      ["let's encrypt".toList] ["comodo".toList]).2.1
      (by decide) ⟨"let's encrypt".toList, by decide, by decide⟩
  · exact (classify_cert_precedence "CN=Internal Corp Root".toList
      ["let's encrypt".toList] ["comodo".toList]).2.2 (by decide) (by decide)

theorem nil_strIn (l : List Char) : strIn [] l = true := by
  induction l with
  | nil => rfl
  | cons c t ih => simp [strIn, List.isPrefixOf, ih]

/-- C9: an empty blacklist pattern matches every subject, so it forces RED;
symmetrically an empty whitelist pattern makes YELLOW unreachable. -/
theorem classify_cert_empty_pattern (subject : List Char)
    (whitelist blacklist : List (List Char)) :
    (([] : List Char) ∈ blacklist →
      classify_cert subject whitelist blacklist = "RED".toList) ∧
    (([] : List Char) ∈ whitelist →
      classify_cert subject whitelist blacklist ≠ "YELLOW".toList) := by
  constructor
  · intro hb
    unfold classify_cert
    dsimp only
    have hany : (blacklist.any fun pat =>
        strIn (lowerStr pat) (normalize_subject subject)) = true :=
      List.any_eq_true.mpr ⟨[], hb, nil_strIn _⟩
    rw [if_pos hany]
  · intro hw
    unfold classify_cert
    dsimp only
    split
    · decide
    · have hany : (whitelist.any fun pat =>
          strIn (lowerStr pat) (normalize_subject subject)) = true :=
        List.any_eq_true.mpr ⟨[], hw, nil_strIn _⟩
      rw [if_pos hany]
      decide

/-- C9 witness: at a concrete subject and policies. -/
theorem classify_cert_empty_pattern_witness :
    classify_cert "CN=Anything".toList ["x".toList] [[]] = "RED".toList ∧
    classify_cert "CN=Anything".toList [[]] ["zzz".toList] ≠ "YELLOW".toList := by
  constructor
  · exact (classify_cert_empty_pattern "CN=Anything".toList ["x".toList] [[]]).1
      (by decide)
  · exact (classify_cert_empty_pattern "CN=Anything".toList [[]] ["zzz".toList]).2
      (by decide)

theorem foldr_max_le {l : List Nat} {k : Nat} (h : ∀ x ∈ l, x ≤ k) :
    l.foldr max 0 ≤ k := by
  induction l with
  | nil => exact Nat.zero_le k
  | cons a t ih =>
    simp only [List.foldr_cons, max_le_iff]
    exact ⟨h a (List.mem_cons_self a t), ih fun x hx => h x (List.mem_cons_of_mem a hx)⟩

theorem le_foldr_max {l : List Nat} {x : Nat} (h : x ∈ l) : x ≤ l.foldr max 0 := by
  induction l with
  | nil => cases h
  | cons a t ih =>
    simp only [List.foldr_cons, le_max_iff]
    rcases List.mem_cons.mp h with h | h
    · exact Or.inl (le_of_eq h)
    · exact Or.inr (ih h)

theorem severity_le_two (c : List Char) : severity c ≤ 2 := by
  unfold severity
  split
  · exact le_refl 2
  · split
    · omega
    · omega

/-- C3: the aggregated image status equals the maximum severity of the
per-cert classifications (RED > YELLOW > GREEN), and the empty certificate
list yields GREEN unconditionally. -/
theorem image_status_eq_max_severity :
    (∀ flat : List OutCert, image_status flat = status_of_severity (max_severity flat)) ∧
    image_status [] = "GREEN".toList := by
  constructor
  · intro flat
    unfold image_status
    dsimp only
    by_cases hr : flat.any (fun c => c.classification == "RED".toList) = true
    · rw [if_pos hr]
      obtain ⟨c, hc, hbeq⟩ := List.any_eq_true.mp hr
      have hcls : c.classification = "RED".toList := by
        exact eq_of_beq hbeq
      have h2 : severity c.classification = 2 := by rw [hcls]; rfl
      have hle : max_severity flat ≤ 2 :=
        foldr_max_le (by
          intro x hx
          obtain ⟨d, _, hd⟩ := List.mem_map.mp hx
          rw [← hd]; exact severity_le_two _)
      have hge : 2 ≤ max_severity flat := by
        have : severity c.classification ∈ flat.map (fun c => severity c.classification) :=
          List.mem_map.mpr ⟨c, hc, rfl⟩
        have := le_foldr_max this
        unfold max_severity
        omega
      have : max_severity flat = 2 := le_antisymm hle hge
      rw [this]
      rfl
    · rw [if_neg hr]
      have hnored : ∀ c ∈ flat, c.classification ≠ "RED".toList := by
        intro c hc heq
        exact hr (List.any_eq_true.mpr ⟨c, hc, beq_iff_eq.mpr heq⟩)
      have hsev1 : ∀ c ∈ flat, severity c.classification ≤ 1 := by
        intro c hc
        unfold severity
        rw [if_neg (hnored c hc)]
        split
        · omega
        · omega
      by_cases hy : (!flat.isEmpty && flat.any (fun c => c.classification == "YELLOW".toList))
          = true
      · rw [if_pos hy]
        have hay := (Bool.and_eq_true _ _).mp hy |>.2
        obtain ⟨c, hc, hbeq⟩ := List.any_eq_true.mp hay
        have hcls : c.classification = "YELLOW".toList := eq_of_beq hbeq
        have h1 : severity c.classification = 1 := by rw [hcls]; rfl
        have hle : max_severity flat ≤ 1 :=
          foldr_max_le (by
            intro x hx
            obtain ⟨d, hd, hdx⟩ := List.mem_map.mp hx
            rw [← hdx]; exact hsev1 d hd)
        have hge : 1 ≤ max_severity flat := by
          have : severity c.classification ∈ flat.map (fun c => severity c.classification) :=
            List.mem_map.mpr ⟨c, hc, rfl⟩
          have := le_foldr_max this
          unfold max_severity
          omega
        have : max_severity flat = 1 := le_antisymm hle hge
        rw [this]
        rfl
      · rw [if_neg hy]
        have : max_severity flat = 0 := by
          rcases Bool.and_eq_false_iff.mp (Bool.not_eq_true _ |>.mp hy) with h | h
          · have : flat = [] := by
              cases flat
              · rfl
              · simp at h
            rw [this]
            rfl
          · have hnoy : ∀ c ∈ flat, c.classification ≠ "YELLOW".toList := by
              intro c hc heq
              have : flat.any (fun c => c.classification == "YELLOW".toList) = true :=
                List.any_eq_true.mpr ⟨c, hc, beq_iff_eq.mpr heq⟩
              rw [this] at h
              simp at h
            apply Nat.le_zero.mp
            apply foldr_max_le
            intro x hx
            obtain ⟨d, hd, hdx⟩ := List.mem_map.mp hx
            rw [← hdx]
            unfold severity
            rw [if_neg (hnored d hd), if_neg (hnoy d hd)]
        rw [this]
        rfl
  · rfl

/-- C4 counterexample: normalization is not idempotent — a doubled
`subject=` prefix is stripped once per application. -/
theorem normalize_subject_not_idempotent :
    normalize_subject (normalize_subject "subject=subject=a".toList) ≠
      normalize_subject "subject=subject=a".toList := by
  decide

/-! ## Normalization idempotence analysis -/

theorem dropWhile_head_false {p : Char → Bool} {l : List Char} {a : Char} {t : List Char}
    (h : l.dropWhile p = a :: t) : p a = false := by
  have hh := List.head?_dropWhile_not p l
  rw [h] at hh
  simpa using hh

theorem dropWhile_idem (p : Char → Bool) (l : List Char) :
    (l.dropWhile p).dropWhile p = l.dropWhile p := by
  cases h : l.dropWhile p with
  | nil => rfl
  | cons a t =>
    have ha : p a = false := dropWhile_head_false h
    rw [List.dropWhile_cons_of_neg]
    simp [ha]

theorem dropWhile_append_self_left {p : Char → Bool} {x w : List Char}
    (h : (x ++ w).dropWhile p = x ++ w) : x.dropWhile p = x := by
  cases x with
  | nil => rfl
  | cons a t =>
    rw [List.cons_append] at h
    have ha : p a = false := by
      have hh := List.head?_dropWhile_not p (a :: (t ++ w))
      rw [h] at hh
      simpa using hh
    rw [List.dropWhile_cons_of_neg]
    simp [ha]

theorem dropWhile_take {p : Char → Bool} {l : List Char} (n : Nat)
    (h : l.dropWhile p = l) : (l.take n).dropWhile p = l.take n := by
  cases l with
  | nil => simp
  | cons a t =>
    have ha : p a = false := by
      have hh := List.head?_dropWhile_not p (a :: t)
      rw [h] at hh
      simpa using hh
    cases n with
    | zero => rfl
    | succ m =>
      rw [List.take_succ_cons, List.dropWhile_cons_of_neg]
      simp [ha]

theorem rstrip_noLead {l : List Char}
    (h : l.dropWhile Char.isWhitespace = l) :
    (rstrip l).dropWhile Char.isWhitespace = rstrip l := by
  have decomp : l = (l.reverse.dropWhile Char.isWhitespace).reverse ++
      (l.reverse.takeWhile Char.isWhitespace).reverse := by
    conv_lhs => rw [← List.reverse_reverse l,
      ← List.takeWhile_append_dropWhile Char.isWhitespace l.reverse]
    rw [List.reverse_append]
  unfold rstrip
  exact dropWhile_append_self_left (by rw [← decomp]; exact h)

theorem lstrip_noTrail {q : Char → Bool} {l : List Char}
    (h : l.reverse.dropWhile Char.isWhitespace = l.reverse) :
    (l.dropWhile q).reverse.dropWhile Char.isWhitespace = (l.dropWhile q).reverse := by
  have decomp : l.reverse = (l.dropWhile q).reverse ++ (l.takeWhile q).reverse := by
    conv_lhs => rw [← List.takeWhile_append_dropWhile q l]
    rw [List.reverse_append]
  exact dropWhile_append_self_left (by rw [← decomp]; exact h)

theorem drop_noTrail {l : List Char} (n : Nat)
    (h : l.reverse.dropWhile Char.isWhitespace = l.reverse) :
    (l.drop n).reverse.dropWhile Char.isWhitespace = (l.drop n).reverse := by
  rw [List.reverse_drop]
  exact dropWhile_take _ h

theorem lowerStr_dropWhile (l : List Char) :
    (lowerStr l).dropWhile Char.isWhitespace = lowerStr (l.dropWhile Char.isWhitespace) := by
  unfold lowerStr
  rw [List.dropWhile_map]
  have hp : (Char.isWhitespace ∘ Char.toLower) = Char.isWhitespace :=
    funext toLower_isWhitespace
  rw [hp]

theorem lowerStr_reverse (l : List Char) : (lowerStr l).reverse = lowerStr l.reverse := by
  unfold lowerStr
  rw [← List.map_reverse]

theorem pystrip_noLead (s : List Char) :
    (pystrip s).dropWhile Char.isWhitespace = pystrip s := by
  unfold pystrip
  exact rstrip_noLead (dropWhile_idem _ s)

theorem pystrip_noTrail (s : List Char) :
    (pystrip s).reverse.dropWhile Char.isWhitespace = (pystrip s).reverse := by
  unfold pystrip rstrip
  rw [List.reverse_reverse]
  exact dropWhile_idem _ _

theorem normalize_noLead (s : List Char) :
    (normalize_subject s).dropWhile Char.isWhitespace = normalize_subject s := by
  unfold normalize_subject
  dsimp only
  split
  · rw [lowerStr_dropWhile]
    unfold lstrip
    rw [dropWhile_idem]
  · rw [lowerStr_dropWhile, pystrip_noLead]

theorem normalize_noTrail (s : List Char) :
    (normalize_subject s).reverse.dropWhile Char.isWhitespace =
      (normalize_subject s).reverse := by
  unfold normalize_subject
  dsimp only
  split
  · rw [lowerStr_reverse, lowerStr_dropWhile]
    unfold lstrip
    rw [lstrip_noTrail (drop_noTrail 8 (pystrip_noTrail s))]
  · rw [lowerStr_reverse, lowerStr_dropWhile, pystrip_noTrail]

theorem pystrip_normalize (s : List Char) :
    pystrip (normalize_subject s) = normalize_subject s := by
  unfold pystrip lstrip rstrip
  rw [normalize_noLead s, normalize_noTrail s, List.reverse_reverse]

/-- C4 (amended): normalization is idempotent on every subject whose
normalized form does not itself begin with `subject=`; in general a repeated
`subject=` prefix is stripped once per application, so idempotence fails
(see the counterexample). -/
theorem normalize_subject_idem (s : List Char)
    (h : ("subject=".toList).isPrefixOf (normalize_subject s) = false) :
    normalize_subject (normalize_subject s) = normalize_subject s := by
  have hstrip : pystrip (normalize_subject s) = normalize_subject s := pystrip_normalize s
  have hlow : lowerStr (normalize_subject s) = normalize_subject s := lowerStr_normalize s
  conv_lhs => rw [normalize_subject]
  rw [hstrip, hlow, h]
  simp [hlow]

/-- C4 witness: the amended idempotence at a concrete subject. -/
theorem normalize_subject_idem_witness :
    ("subject=".toList).isPrefixOf (normalize_subject "Subject=CN=Foo".toList) = false ∧
    normalize_subject (normalize_subject "Subject=CN=Foo".toList) =
      normalize_subject "Subject=CN=Foo".toList :=
  ⟨by decide, normalize_subject_idem _ (by decide)⟩

theorem create_scan_job_mem (jobs : List (List Char)) (image : List Char) :
    make_job_name image ∈ (create_scan_job jobs image).1 := by
  unfold create_scan_job
  dsimp only
  split
  · next h => simpa using h
  · exact List.mem_append_right _ (List.mem_singleton.mpr rfl)

theorem create_scan_job_contains (jobs : List (List Char)) (image : List Char) :
    ((create_scan_job jobs image).1).contains (make_job_name image) = true := by
  simpa using create_scan_job_mem jobs image

/-- C1: the ScanJob created (or reused) by `extract_certs_with_job` still
exists when the call returns, whatever the phase, pod lookup result or logs:
the module performs no deletion on any path (there is no delete call at all),
so the claimed cleanup invariant is violated by every invocation. -/
theorem extract_certs_with_job_no_cleanup (jobs : List (List Char)) (image : List Char)
    (env : ScanEnv) : make_job_name image ∈ (extract_certs_with_job jobs image env).1 := by
  unfold extract_certs_with_job
  dsimp only
  cases hp : env.pod with
  | none => exact create_scan_job_mem jobs image
  | some p =>
    by_cases h : env.phase ≠ Phase.complete
    · rw [if_pos h]
      exact create_scan_job_mem jobs image
    · rw [if_neg h]
      exact create_scan_job_mem jobs image

/-- C5 counterexample: the actual job-name prefix is `ca-scan-`, not `scan-`
as the claim states; evaluated at the image `"a"`. -/
theorem make_job_name_cex :
    make_job_name "a".toList = "ca-scan-86f7e437fa".toList ∧
    make_job_name "a".toList ≠ "scan-".toList ++ (sha1Hex (utf8Encode "a".toList)).take 10 := by
  constructor
  · set_option maxRecDepth 40000 in decide
  · set_option maxRecDepth 40000 in decide

/-- C5 (amended): the job name is `"ca-scan-"` plus the first ten hex chars
of the SHA-1 of the image, a deterministic function of the image; submitting
twice for the same image yields the same name and leaves the job set
unchanged (reuse, not duplication). -/
theorem make_job_name_deterministic (image : List Char) :
    make_job_name image = "ca-scan-".toList ++ (sha1Hex (utf8Encode image)).take 10 ∧
    ∀ jobs : List (List Char),
      (create_scan_job (create_scan_job jobs image).1 image).2 =
        (create_scan_job jobs image).2 ∧
      (create_scan_job (create_scan_job jobs image).1 image).1 =
        (create_scan_job jobs image).1 := by
  refine ⟨rfl, ?_⟩
  intro jobs
  constructor
  · rfl
  · conv_lhs => rw [create_scan_job]
    dsimp only
    rw [if_pos (create_scan_job_contains jobs image)]

/-- C6: when the awaited phase is not Complete, or no pod can be located,
the call returns an empty certificate list (and raises nothing — it is a
total function). -/
theorem extract_certs_with_job_empty (jobs : List (List Char)) (image : List Char)
    (env : ScanEnv) (h : env.phase ≠ Phase.complete ∨ env.pod = none) :
    (extract_certs_with_job jobs image env).2 = [] := by
  unfold extract_certs_with_job
  dsimp only
  cases hp : env.pod with
  | none => rfl
  | some p =>
    rcases h with h | h
    · rw [if_pos h]
    · rw [hp] at h
      cases h

/-- C6 witness: a timed-out scan with a pod present, and a completed scan
with no pod, both yield zero certificates. -/
theorem extract_certs_with_job_empty_witness :
    (extract_certs_with_job [] "img".toList
      ⟨Phase.timeout, some "pod-1".toList, "p\ts".toList⟩).2 = [] ∧
    (extract_certs_with_job [] "img".toList ⟨Phase.complete, none, "p\ts".toList⟩).2 = [] :=
  ⟨extract_certs_with_job_empty [] "img".toList _ (Or.inl (by decide)),
    extract_certs_with_job_empty [] "img".toList _ (Or.inr rfl)⟩

theorem parse_lines_eq_filterMap (lines : List (List Char)) :
    parse_lines lines = lines.filterMap line_record := by
  induction lines with
  | nil => rfl
  | cons line rest ih =>
    rw [List.filterMap_cons]
    rw [parse_lines, line_record]
    dsimp only
    split
    · split
      · dsimp only
        rw [ih]
      · dsimp only
        rw [ih]
    · dsimp only
      rw [ih]

/-- C7 counterexample: the claim's per-line rule rejects the blob
`"\tp\ts"` (its only line splits at the first tab into an empty path), but
the code first strips the whole blob — removing the leading tab — and then
accepts the line, producing one record. -/
theorem parse_cert_logs_cex :
    parse_cert_logs "\tp\ts".toList ≠ claim_parse "\tp\ts".toList := by
  decide

/-- C7 (amended): the parser first strips leading and trailing whitespace
(including tabs and newlines) from the whole blob, then splits into lines
and keeps exactly the lines with a tab whose first-tab split has both sides
non-empty after trimming, storing the trimmed sides; it is a total function,
so malformed input only yields fewer records, never a failure. -/
theorem parse_cert_logs_eq_claim (blob : List Char) :
    parse_cert_logs blob = claim_parse (pystrip blob) := by
  unfold parse_cert_logs claim_parse
  dsimp only
  split
  · next h =>
    have : pystrip blob = [] := List.isEmpty_iff.mp h
    rw [this]
    rfl
  · exact parse_lines_eq_filterMap _

theorem strLe_trans : ∀ a b c : List Char,
    strLe a b = true → strLe b c = true → strLe a c = true := by
  intro a
  induction a with
  | nil => intro b c _ _; rfl
  | cons x xs ih =>
    intro b c hab hbc
    cases b with
    | nil => simp [strLe] at hab
    | cons y ys =>
      cases c with
      | nil => simp [strLe] at hbc
      | cons z zs =>
        unfold strLe at hab hbc ⊢
        split_ifs at hab hbc ⊢ <;>
          first
          | rfl
          | omega
          | (exact ih ys zs hab hbc)

theorem strLe_total : ∀ a b : List Char, (strLe a b || strLe b a) = true := by
  intro a
  induction a with
  | nil => intro b; rfl
  | cons x xs ih =>
    intro b
    cases b with
    | nil => rfl
    | cons y ys =>
      unfold strLe
      split_ifs <;>
        first
        | rfl
        | omega
        | (simpa using ih ys)

theorem orchestrator_scan_images (envf : List Char → ScanEnv) :
    ∀ (l : List InvEntry) (jobs : List (List Char)),
      ((orchestrator_scan envf jobs l).2).map InEntry.image = l.map InvEntry.image := by
  intro l
  induction l with
  | nil => intro jobs; rfl
  | cons e rest ih =>
    intro jobs
    unfold orchestrator_scan
    dsimp only
    rw [List.map_cons, List.map_cons, ih]

theorem analyse_main_images (whitelist blacklist : List (List Char))
    (entries : List InEntry) :
    (analyse_main whitelist blacklist entries).map OutEntry.image =
      entries.map InEntry.image := by
  unfold analyse_main
  rw [List.map_map]
  rfl

/-- C8: for every inventory with distinct images, the report produced by the
orchestrator followed by classification has exactly the inventory's images
(a permutation, hence one entry per distinct image and no duplicates) and is
ordered ascending by image. -/
theorem report_sorted_by_image (whitelist blacklist : List (List Char))
    (jobs0 : List (List Char)) (inv : List InvEntry) (envf : List Char → ScanEnv)
    (hn : (inv.map InvEntry.image).Nodup) :
    ((analyse_main whitelist blacklist (orchestrator_main jobs0 inv envf)).map
        OutEntry.image).Perm (inv.map InvEntry.image) ∧
    ((analyse_main whitelist blacklist (orchestrator_main jobs0 inv envf)).map
        OutEntry.image).Pairwise (fun a b => strLe a b = true) ∧
    ((analyse_main whitelist blacklist (orchestrator_main jobs0 inv envf)).map
        OutEntry.image).Nodup := by
  have himg : (analyse_main whitelist blacklist (orchestrator_main jobs0 inv envf)).map
      OutEntry.image =
      (inv.mergeSort (fun a b => strLe a.image b.image)).map InvEntry.image := by
    rw [analyse_main_images]
    unfold orchestrator_main
    rw [orchestrator_scan_images]
  have hperm : ((inv.mergeSort (fun a b => strLe a.image b.image)).map
      InvEntry.image).Perm (inv.map InvEntry.image) :=
    (List.mergeSort_perm inv _).map InvEntry.image
  refine ⟨?_, ?_, ?_⟩
  · rw [himg]
    exact hperm
  · rw [himg]
    have hsorted : (inv.mergeSort (fun a b => strLe a.image b.image)).Pairwise
        (fun a b => strLe a.image b.image = true) := by
      have := @List.sorted_mergeSort InvEntry
        (fun a b : InvEntry => strLe a.image b.image)
        (fun a b c hab hbc => strLe_trans _ _ _ hab hbc)
        (fun a b => strLe_total a.image b.image) inv
      simpa using this
    exact hsorted.map InvEntry.image (fun a b h => h)
  · rw [himg]
    exact hperm.nodup_iff.mpr hn

/-- C8 witness: a two-image inventory given out of order. -/
theorem report_sorted_by_image_witness :
    ((analyse_main [] [] (orchestrator_main []
        [⟨"b".toList, ["ns1".toList]⟩, ⟨"a".toList, ["ns2".toList]⟩]
        (fun _ => ⟨Phase.timeout, none, []⟩))).map OutEntry.image).Perm
      (["b".toList, "a".toList]) ∧
    ((analyse_main [] [] (orchestrator_main []
        [⟨"b".toList, ["ns1".toList]⟩, ⟨"a".toList, ["ns2".toList]⟩]
        (fun _ => ⟨Phase.timeout, none, []⟩))).map OutEntry.image).Pairwise
      (fun a b => strLe a b = true) := by
  have h := report_sorted_by_image [] [] []
    [⟨"b".toList, ["ns1".toList]⟩, ⟨"a".toList, ["ns2".toList]⟩]
    (fun _ => ⟨Phase.timeout, none, []⟩) (by decide)
  exact ⟨h.1, h.2.1⟩

/-- C10: classification is read-only on its input: the report entry keeps
the image and namespaces unchanged and has exactly one output cert per input
cert, in order, with path and raw subject copied verbatim; only the per-cert
classification and per-image status are added (the only other fields of the
output record type). -/
theorem analyse_entry_frame (whitelist blacklist : List (List Char)) (e : InEntry) :
    (analyse_entry whitelist blacklist e).image = e.image ∧
    (analyse_entry whitelist blacklist e).namespaces = e.namespaces ∧
    (analyse_entry whitelist blacklist e).certs.map (fun c => (c.path, c.subject)) =
      e.certs.map (fun c => (c.path, c.subject)) := by
  refine ⟨rfl, rfl, ?_⟩
  unfold analyse_entry
  dsimp only
  rw [List.map_map]
  rfl
